import Mathlib

/-!
Verification of the TI4 map-generator core (`ti4_map_generator/map_generation.py`)
against its natural-language specification.

Shallow embedding conventions:
* Python `float` values (resources, influence, absolute values) are modelled by `ℚ`.
  Every arithmetic operation the source performs on them (integer sums, halving,
  the `1.5 ×` comparison) is exact in binary floating point, so `ℚ` is faithful.
* Python `str` fields that are only compared for equality (`color`, `name`, `type_`)
  are Lean `String`s; `technology` / `wormholes` / anomaly names, whose lengths,
  concatenations and character multisets matter, are `List Char`.
* A Python `anomalies = None` and `anomalies = []` behave identically in every
  use site (both are falsy, both yield no wormholes), so both are modelled by `[]`.
* Exceptions are modelled by `Except Err`; the unbounded `while` loops are given
  explicit fuel, with fuel exhaustion modelled as `Err.divergence` (Python would
  loop forever there).
* The process-wide random source is modelled as an explicit stream of naturals
  (`List ℕ`, exhaustion yielding 0); `random.shuffle` is modelled as a
  rng-driven selection shuffle consuming one draw per emitted element, and
  `random.randint(0, n-1)` as `r % n` for the next draw `r`.
-/

namespace TI4

/-- Characters of a Python string whose length/containment structure matters. -/
abbrev Str := List Char

/-- The runtime errors the embedded fragment can raise, plus `divergence` for a
`while` loop that would spin forever. -/
inductive Err where
  | notImplemented
  | indexError
  | attributeError
  | zeroDivision
  | valueError
  | divergence
deriving DecidableEq

/-- The `Planet` dataclass after `__post_init__` has run. -/
structure Planet where
  name : String
  resources : ℚ
  influence : ℚ
  technology : Str
  type_ : String
deriving DecidableEq

/-- `Planet.__post_init__`: dominance rule applied once at construction. -/
def Planet.create (name : String) (resources influence : ℚ) (technology : Str)
    (type_ : String) : Planet :=
  if resources ≥ 2 * influence then
    { name := name, resources := resources, influence := 0,
      technology := technology, type_ := type_ }
  else if influence ≥ 2 * resources then
    { name := name, resources := 0, influence := influence,
      technology := technology, type_ := type_ }
  else
    { name := name, resources := resources / 2, influence := influence / 2,
      technology := technology, type_ := type_ }

/-- A planet record as consumed by `Tile.__post_init__` (the loader passes raw
planet dictionaries: a name, integral resources/influence and a tech tag). -/
structure PlanetRec where
  name : String
  resources : ℚ
  influence : ℚ
  technology : Str
deriving DecidableEq

/-- The `Tile` dataclass together with the fields derived in `__post_init__`. -/
structure Tile where
  id_ : ℤ
  color : String
  planets : List PlanetRec
  anomalies : List Str
  resources : ℚ
  influence : ℚ
  technology : Str
  wormholes : Str
  absolute_value : ℚ
deriving DecidableEq

/-- The literal `"Wormhole"` tested by `anomaly.startswith('Wormhole')`. -/
def wormholeWord : Str := ['W', 'o', 'r', 'm', 'h', 'o', 'l', 'e']

/-- `anomaly[-1]` — the trailing character (the guard guarantees nonemptiness). -/
def lastCharOf (a : Str) : Str :=
  match a.getLast? with
  | some c => [c]
  | none => []

/-- The wormhole-type string accumulated by the anomaly loop of
`Tile.__post_init__`. -/
def wormholesOf (anomalies : List Str) : Str :=
  anomalies.foldl
    (fun w a => if wormholeWord.isPrefixOf a then w ++ lastCharOf a else w) []

/-- `Tile.__post_init__`: sums the planet fields and derives
`wormholes`/`absolute_value`. -/
def Tile.create (id_ : ℤ) (color : String) (planets : List PlanetRec)
    (anomalies : List Str) : Tile :=
  let resources := planets.foldl (fun r p => r + p.resources) 0
  let influence := planets.foldl (fun r p => r + p.influence) 0
  let technology := planets.foldl (fun s p => s ++ p.technology) []
  let wormholes := wormholesOf anomalies
  let base := resources + influence + 2 * (technology.length : ℚ)
  let absolute_value :=
    if wormholes ≠ [] then
      if wormholes.length - wormholes.dedup.length = 0 then base + 1 else base
    else base
  { id_ := id_, color := color, planets := planets, anomalies := anomalies,
    resources := resources, influence := influence, technology := technology,
    wormholes := wormholes, absolute_value := absolute_value }

/-- `Slice` with its aggregate fields. -/
structure Slice where
  tiles : List Tile
  resources : ℚ
  influence : ℚ
  technology : Str
  wormholes : Str
  absolute_value : ℚ
deriving DecidableEq

/-- `Slice.update_values`: recompute every aggregate from the member list. -/
def Slice.update_values (s : Slice) : Slice :=
  { s with
    resources := s.tiles.foldl (fun r t => r + t.resources) 0
    influence := s.tiles.foldl (fun r t => r + t.influence) 0
    technology := s.tiles.foldl (fun w t => w ++ t.technology) []
    wormholes := s.tiles.foldl (fun w t => w ++ t.wormholes) []
    absolute_value := s.tiles.foldl (fun r t => r + t.absolute_value) 0 }

/-- `Slice.__init__`. -/
def Slice.create (tiles : List Tile) : Slice :=
  Slice.update_values
    { tiles := tiles, resources := 0, influence := 0, technology := [],
      wormholes := [], absolute_value := 0 }

/-- `Slice.is_slice_unbalanced`. -/
def Slice.is_slice_unbalanced (s : Slice) : Bool :=
  if s.resources ≥ 2 * s.influence then true
  else if s.influence ≥ 2 * s.resources then true
  else false

/-- `list.sort()` on tiles: stable sort ascending by `absolute_value`
(`Tile.__lt__`/`__eq__` compare only `absolute_value`). -/
def sortTilesAsc (ts : List Tile) : List Tile :=
  ts.mergeSort (fun a b => decide (a.absolute_value ≤ b.absolute_value))

/-- `list.sort(reverse=True)` on tiles: stable sort descending by
`absolute_value`. -/
def sortTilesDesc (ts : List Tile) : List Tile :=
  ts.mergeSort (fun a b => decide (b.absolute_value ≤ a.absolute_value))

/-- Find the first element satisfying `p` and remove it
(the `enumerate` / `pop(idx)` scan of the remove methods). -/
def extractFirst {α : Type} (p : α → Bool) : List α → Option (α × List α)
  | [] => none
  | x :: xs =>
    if p x then some (x, xs)
    else
      match extractFirst p xs with
      | some (y, rest) => some (y, x :: rest)
      | none => none

/-- `Slice.remove_best_tile`: sort descending (the sort mutates the slice even
when no tile of the colour exists), pop the first tile of the colour. -/
def Slice.remove_best_tile (s : Slice) (color : String) : Option Tile × Slice :=
  let ts := sortTilesDesc s.tiles
  match extractFirst (fun t => t.color == color) ts with
  | some (t, rest) => (some t, { s with tiles := rest })
  | none => (none, { s with tiles := ts })

/-- `Slice.remove_worst_tile`: ascending variant. -/
def Slice.remove_worst_tile (s : Slice) (color : String) : Option Tile × Slice :=
  let ts := sortTilesAsc s.tiles
  match extractFirst (fun t => t.color == color) ts with
  | some (t, rest) => (some t, { s with tiles := rest })
  | none => (none, { s with tiles := ts })

/-- `Slice.remove_excessive_tile`: sort descending by whichever of
resources/influence is larger for the slice, pop the head (`none` models the
`IndexError` of `pop(0)` on an empty list). -/
def Slice.remove_excessive_tile (s : Slice) : Option Tile × Slice :=
  let key : Tile → ℚ := fun t =>
    if s.resources > s.influence then t.resources else t.influence
  match s.tiles.mergeSort (fun a b => decide (key b ≤ key a)) with
  | [] => (none, s)
  | t :: rest => (some t, { s with tiles := rest })

/-- `Slice.add`: append and recompute every aggregate. -/
def Slice.add (s : Slice) (t : Tile) : Slice :=
  Slice.update_values { s with tiles := s.tiles ++ [t] }

/-- `check_slice_balance`: the `max`/`min` built-ins applied to slices compare
by `absolute_value`, so their `absolute_value` fields are the extremal values;
`valueError` models `max([])`. -/
def check_slice_balance (slices : List Slice) : Except Err Bool :=
  match slices with
  | [] => .error .valueError
  | s :: rest =>
    let maxAV := (rest.map Slice.absolute_value).foldl max s.absolute_value
    let minAV := (rest.map Slice.absolute_value).foldl min s.absolute_value
    if maxAV ≥ 3 / 2 * minAV then .ok false
    else if (s :: rest).any Slice.is_slice_unbalanced then .ok false
    else .ok true

/-- `slices.sort()`: stable sort ascending by `absolute_value`
(`Slice.__lt__`/`__eq__` compare only `absolute_value`). -/
def sortSlicesByAV (ss : List Slice) : List Slice :=
  ss.mergeSort (fun a b => decide (a.absolute_value ≤ b.absolute_value))

/-- First phase of `rebalance_slices`, applied to the av-sorted list:
`worst_slice, best_slice = slices[0], slices[-1]`, and if
`best ≥ 1.5 × worst` swap the best slice's best blue tile with the worst
slice's worst tile of the same colour.  The one-element case is kept separate
because there `slices[0]` and `slices[-1]` alias the same Python object.
`attributeError` models `None.color` / iterating a slice holding `None`. -/
def value_equalization (sorted : List Slice) : Except Err (List Slice) :=
  match sorted with
  | [] => .error .indexError
  | [s] =>
    if s.absolute_value ≥ 3 / 2 * s.absolute_value then
      match s.remove_best_tile "blue" with
      | (none, _) => .error .attributeError
      | (some bt, s1) =>
        match s1.remove_worst_tile bt.color with
        | (none, _) => .error .attributeError
        | (some wt, s2) => .ok [(s2.add wt).add bt]
    else .ok [s]
  | s0 :: s1 :: rest =>
    let best := (s1 :: rest).getLast (List.cons_ne_nil s1 rest)
    let middle := (s1 :: rest).dropLast
    if best.absolute_value ≥ 3 / 2 * s0.absolute_value then
      match best.remove_best_tile "blue" with
      | (none, _) => .error .attributeError
      | (some bt, best1) =>
        match s0.remove_worst_tile bt.color with
        | (none, _) => .error .attributeError
        | (some wt, worst1) =>
          .ok (worst1.add bt :: middle ++ [best1.add wt])
    else .ok (s0 :: s1 :: rest)

/-- Second phase of `rebalance_slices`: sort by the `resources / influence`
ratio (the sort key raises `ZeroDivisionError` as soon as any slice has zero
influence) and, if the most influence-heavy or most resources-heavy slice
crosses the `2×` threshold, swap their "excessive" tiles.  The one-element
case again models the aliasing of `slices[0]` and `slices[-1]`. -/
def ratio_rebalance (slices : List Slice) : Except Err (List Slice) :=
  if ∃ s ∈ slices, s.influence = 0 then .error .zeroDivision
  else
    match slices.mergeSort (fun a b =>
      decide (a.resources / a.influence ≤ b.resources / b.influence)) with
    | [] => .error .indexError
    | [s] =>
      if s.influence ≥ 2 * s.resources ∨ s.resources ≥ 2 * s.influence then
        match s.remove_excessive_tile with
        | (none, _) => .error .indexError
        | (some t1, s1) =>
          match s1.remove_excessive_tile with
          | (none, _) => .error .indexError
          | (some t2, s2) => .ok [(s2.add t1).add t2]
      else .ok [s]
    | s0 :: s1 :: rest =>
      let mrh := (s1 :: rest).getLast (List.cons_ne_nil s1 rest)
      let middle := (s1 :: rest).dropLast
      if s0.influence ≥ 2 * s0.resources ∨ mrh.resources ≥ 2 * mrh.influence then
        match s0.remove_excessive_tile with
        | (none, _) => .error .indexError
        | (some ti, mih1) =>
          match mrh.remove_excessive_tile with
          | (none, _) => .error .indexError
          | (some tr, mrh1) =>
            .ok (mih1.add tr :: middle ++ [mrh1.add ti])
      else .ok (s0 :: s1 :: rest)

/-- `rebalance_slices`: av-sort, value equalization, then ratio rebalance. -/
def rebalance_slices (slices : List Slice) : Except Err (List Slice) :=
  (value_equalization (sortSlicesByAV slices)).bind ratio_rebalance

/-! ### C7 — planet derivation -/

/-- **C7, counterexample.** The claim reads the two dominance checks as
independent implications; at raw `resources = -4, influence = -2` the influence
dominance condition holds (`-2 ≥ 2 × -4`) yet the final resources are the raw
`-4`, not `0`, because the resource-dominance branch (`-4 ≥ 2 × -2`) fires
first. -/
theorem planet_create_indep_implications_false :
    ((-2 : ℚ) ≥ 2 * (-4)) ∧
      (Planet.create "p" (-4) (-2) [] "").resources ≠ 0 := by
  constructor
  · norm_num
  · norm_num [Planet.create]

/-- **C7, amended** (restricted to nonnegative raw values, the only change the
counterexample forces): after construction, if raw `resources ≥ 2×influence`
then influence is zeroed and resources kept raw; if raw
`influence ≥ 2×resources` then resources are zeroed and influence kept raw;
otherwise both are halved. -/
theorem planet_create_spec (name : String) (res inf : ℚ) (tech : Str)
    (ty : String) (hres : 0 ≤ res) (hinf : 0 ≤ inf) :
    (res ≥ 2 * inf →
      (Planet.create name res inf tech ty).influence = 0 ∧
      (Planet.create name res inf tech ty).resources = res) ∧
    (inf ≥ 2 * res →
      (Planet.create name res inf tech ty).resources = 0 ∧
      (Planet.create name res inf tech ty).influence = inf) ∧
    (¬ res ≥ 2 * inf → ¬ inf ≥ 2 * res →
      (Planet.create name res inf tech ty).resources = res / 2 ∧
      (Planet.create name res inf tech ty).influence = inf / 2) := by
  refine ⟨fun h1 => ?_, fun h2 => ?_, fun h1 h2 => ?_⟩
  · simp [Planet.create, h1]
  · by_cases h1 : res ≥ 2 * inf
    · -- both dominance conditions: forces res = inf = 0
      have hres0 : res = 0 := by nlinarith
      have hinf0 : inf = 0 := by nlinarith
      simp [Planet.create, hres0, hinf0]
    · simp [Planet.create, h1, h2]
  · simp [Planet.create, h1, h2]

/-- **C7, witness.** -/
theorem planet_create_spec_witness :
    ((0 : ℚ) ≤ 4) ∧ ((0 : ℚ) ≤ 1) ∧
    (((4 : ℚ) ≥ 2 * 1 →
      (Planet.create "w" 4 1 [] "").influence = 0 ∧
      (Planet.create "w" 4 1 [] "").resources = 4) ∧
    ((1 : ℚ) ≥ 2 * 4 →
      (Planet.create "w" 4 1 [] "").resources = 0 ∧
      (Planet.create "w" 4 1 [] "").influence = 1) ∧
    (¬ (4 : ℚ) ≥ 2 * 1 → ¬ (1 : ℚ) ≥ 2 * 4 →
      (Planet.create "w" 4 1 [] "").resources = 4 / 2 ∧
      (Planet.create "w" 4 1 [] "").influence = 1 / 2)) :=
  ⟨by norm_num, by norm_num,
    planet_create_spec "w" 4 1 [] "" (by norm_num) (by norm_num)⟩

/-! ### C2 — tile absolute value -/

/-- **C2.** Every constructed tile's `absolute_value` equals
`resources + influence + 2·len(technology)`, plus `1` exactly when the
wormholes string (trailing characters of the `"Wormhole"`-named anomalies) is
nonempty with no repeated character. -/
theorem tile_create_absolute_value (id_ : ℤ) (color : String)
    (planets : List PlanetRec) (anomalies : List Str) :
    (Tile.create id_ color planets anomalies).wormholes = wormholesOf anomalies ∧
    (Tile.create id_ color planets anomalies).absolute_value =
      (Tile.create id_ color planets anomalies).resources +
      (Tile.create id_ color planets anomalies).influence +
      2 * ((Tile.create id_ color planets anomalies).technology.length : ℚ) +
      (if wormholesOf anomalies ≠ [] ∧ (wormholesOf anomalies).Nodup
        then 1 else 0) := by
  have hdedup : ∀ w : Str, (w.length - w.dedup.length = 0) ↔ w.Nodup := by
    intro w
    constructor
    · intro h
      have hle : w.dedup.length ≤ w.length := (List.dedup_sublist w).length_le
      have : w.length ≤ w.dedup.length := Nat.le_of_sub_eq_zero h
      exact List.dedup_eq_self.mp
        ((List.dedup_sublist w).eq_of_length (le_antisymm hle this))
    · intro h
      rw [List.dedup_eq_self.mpr h]
      omega
  refine ⟨rfl, ?_⟩
  by_cases hne : wormholesOf anomalies = []
  · simp [Tile.create, hne]
  · by_cases hnd : (wormholesOf anomalies).Nodup
    · simp [Tile.create, hne, (hdedup _).mpr hnd, hnd]
    · have : ¬ ((wormholesOf anomalies).length -
          (wormholesOf anomalies).dedup.length = 0) := fun h => hnd ((hdedup _).mp h)
      simp [Tile.create, hne, this, hnd]

/-! ### C3 — slice aggregate consistency -/

/-- Spec-side reading of "aggregates equal the sums/concatenations over the
current member tiles". -/
def Slice.aggregates_consistent (s : Slice) : Prop :=
  s.resources = (s.tiles.map Tile.resources).sum ∧
  s.influence = (s.tiles.map Tile.influence).sum ∧
  s.technology = (s.tiles.map Tile.technology).flatten ∧
  s.wormholes = (s.tiles.map Tile.wormholes).flatten ∧
  s.absolute_value = (s.tiles.map Tile.absolute_value).sum

theorem foldl_add_eq_sum (f : Tile → ℚ) (l : List Tile) (a : ℚ) :
    l.foldl (fun r t => r + f t) a = a + (l.map f).sum := by
  induction l generalizing a with
  | nil => simp
  | cons x xs ih => simp [List.foldl_cons, ih, add_assoc]

theorem foldl_append_eq_flatten (f : Tile → Str) (l : List Tile) (a : Str) :
    l.foldl (fun w t => w ++ f t) a = a ++ (l.map f).flatten := by
  induction l generalizing a with
  | nil => simp
  | cons x xs ih => simp [List.foldl_cons, ih]

theorem update_values_consistent (s : Slice) :
    (Slice.update_values s).aggregates_consistent := by
  refine ⟨?_, ?_, ?_, ?_, ?_⟩ <;>
    simp [Slice.update_values, Slice.aggregates_consistent,
      foldl_add_eq_sum, foldl_append_eq_flatten]

/-- **C3, counterexample.** A slice holding one blue tile of absolute value 1:
after `remove_best_tile` the member list is empty, yet the aggregate
`absolute_value` is still `1`, not the sum `0` over the current members —
the remove methods never recompute aggregates. -/
theorem slice_remove_stale_counterexample :
    (((Slice.create [Tile.create 1 "blue" [⟨"p", 1, 0, []⟩] []]).remove_best_tile
        "blue").2.tiles = []) ∧
    ¬ (((Slice.create [Tile.create 1 "blue" [⟨"p", 1, 0, []⟩] []]).remove_best_tile
        "blue").2.absolute_value =
      ((((Slice.create [Tile.create 1 "blue" [⟨"p", 1, 0, []⟩] []]).remove_best_tile
        "blue").2.tiles.map Tile.absolute_value).sum)) := by
  refine ⟨?_, ?_⟩ <;>
    simp [Slice.create, Slice.update_values, Slice.remove_best_tile,
      sortTilesDesc, Tile.create, extractFirst, wormholesOf]

/-- **C3, amended.** Aggregates are recomputed from the member list at
construction and on every `add`; the three remove operations do **not**
recompute them — they change only the member list, leaving every aggregate
field at its pre-removal value (stale until the next `add`). -/
theorem slice_aggregates_add_recomputed_removes_stale (ts : List Tile)
    (s : Slice) (t : Tile) (c : String) :
    (Slice.create ts).aggregates_consistent ∧
    (s.add t).aggregates_consistent ∧
    (s.remove_best_tile c).2 =
      { s with tiles := (s.remove_best_tile c).2.tiles } ∧
    (s.remove_worst_tile c).2 =
      { s with tiles := (s.remove_worst_tile c).2.tiles } ∧
    (s.remove_excessive_tile).2 =
      { s with tiles := (s.remove_excessive_tile).2.tiles } := by
  refine ⟨update_values_consistent _, update_values_consistent _, ?_, ?_, ?_⟩
  · rcases hh : extractFirst (fun t => t.color == c) (sortTilesDesc s.tiles) with
      _ | ⟨t', rest⟩ <;> simp [Slice.remove_best_tile, hh]
  · rcases hh : extractFirst (fun t => t.color == c) (sortTilesAsc s.tiles) with
      _ | ⟨t', rest⟩ <;> simp [Slice.remove_worst_tile, hh]
  · rcases hh : s.tiles.mergeSort (fun a b =>
        decide ((if s.resources > s.influence then b.resources else b.influence) ≤
          (if s.resources > s.influence then a.resources else a.influence))) with
      _ | ⟨t', rest⟩ <;> simp [Slice.remove_excessive_tile, hh]

/-! ### C1 — balance predicate -/

theorem foldl_max_spec (l : List ℚ) (a : ℚ) :
    (a ≤ l.foldl max a ∧ ∀ x ∈ l, x ≤ l.foldl max a) ∧
    (l.foldl max a = a ∨ l.foldl max a ∈ l) := by
  induction l generalizing a with
  | nil => simp
  | cons x xs ih =>
    obtain ⟨⟨h1, h2⟩, h3⟩ := ih (max a x)
    refine ⟨⟨le_trans (le_max_left a x) h1, ?_⟩, ?_⟩
    · intro y hy
      rcases List.mem_cons.mp hy with hy | hy
      · subst hy
        exact le_trans (le_max_right _ _) h1
      · exact h2 y hy
    · rcases h3 with h3 | h3
      · rcases max_choice a x with hc | hc
        · exact Or.inl (by rw [List.foldl_cons, h3, hc])
        · exact Or.inr (by rw [List.foldl_cons, h3, hc]; exact List.mem_cons_self _ _)
      · exact Or.inr (List.mem_cons_of_mem _ h3)

theorem foldl_min_spec (l : List ℚ) (a : ℚ) :
    (l.foldl min a ≤ a ∧ ∀ x ∈ l, l.foldl min a ≤ x) ∧
    (l.foldl min a = a ∨ l.foldl min a ∈ l) := by
  induction l generalizing a with
  | nil => simp
  | cons x xs ih =>
    obtain ⟨⟨h1, h2⟩, h3⟩ := ih (min a x)
    refine ⟨⟨le_trans h1 (min_le_left a x), ?_⟩, ?_⟩
    · intro y hy
      rcases List.mem_cons.mp hy with hy | hy
      · subst hy
        exact le_trans h1 (min_le_right _ _)
      · exact h2 y hy
    · rcases h3 with h3 | h3
      · rcases min_choice a x with hc | hc
        · exact Or.inl (by rw [List.foldl_cons, h3, hc])
        · exact Or.inr (by rw [List.foldl_cons, h3, hc]; exact List.mem_cons_self _ _)
      · exact Or.inr (List.mem_cons_of_mem _ h3)

theorem is_slice_unbalanced_eq_false (s : Slice) :
    s.is_slice_unbalanced = false ↔
      ¬ (s.resources ≥ 2 * s.influence) ∧ ¬ (s.influence ≥ 2 * s.resources) := by
  unfold Slice.is_slice_unbalanced
  by_cases h1 : s.resources ≥ 2 * s.influence <;>
    by_cases h2 : s.influence ≥ 2 * s.resources <;> simp [h1, h2]

/-- **C1.** On a nonempty collection, `check_slice_balance` answers `true`
exactly when every slice's absolute value is below `1.5 ×` every slice's
absolute value (i.e. `max < 1.5 × min`) and no slice is resource/influence
skewed past the `2×` threshold; and whenever some slice is skewed the answer
is `false` regardless of the global spread. -/
theorem check_slice_balance_spec (slices : List Slice) (h : slices ≠ []) :
    (check_slice_balance slices = .ok true ↔
      ((∀ s ∈ slices, ∀ t ∈ slices,
          s.absolute_value < 3 / 2 * t.absolute_value) ∧
        ∀ s ∈ slices,
          ¬ (s.resources ≥ 2 * s.influence) ∧
          ¬ (s.influence ≥ 2 * s.resources))) ∧
    (∀ s ∈ slices,
      (s.resources ≥ 2 * s.influence ∨ s.influence ≥ 2 * s.resources) →
      check_slice_balance slices = .ok false) := by
  match slices, h with
  | s :: rest, _ =>
    set l := rest.map Slice.absolute_value with hl
    set M := l.foldl max s.absolute_value with hM
    set m := l.foldl min s.absolute_value with hm
    obtain ⟨⟨hMa, hMl⟩, hMmem⟩ := foldl_max_spec l s.absolute_value
    obtain ⟨⟨hma, hml⟩, hmmem⟩ := foldl_min_spec l s.absolute_value
    have hMle : ∀ u ∈ s :: rest, u.absolute_value ≤ M := by
      intro u hu
      rcases List.mem_cons.mp hu with hu | hu
      · subst hu
        exact hMa
      · exact hMl _ (List.mem_map_of_mem _ hu)
    have hmle : ∀ u ∈ s :: rest, m ≤ u.absolute_value := by
      intro u hu
      rcases List.mem_cons.mp hu with hu | hu
      · subst hu
        exact hma
      · exact hml _ (List.mem_map_of_mem _ hu)
    have hMw : ∃ u ∈ s :: rest, M = u.absolute_value := by
      rcases hMmem with h' | h'
      · exact ⟨s, List.mem_cons_self _ _, h'⟩
      · obtain ⟨u, hu, hu'⟩ := List.mem_map.mp h'
        exact ⟨u, List.mem_cons_of_mem _ hu, hu'.symm⟩
    have hmw : ∃ u ∈ s :: rest, m = u.absolute_value := by
      rcases hmmem with h' | h'
      · exact ⟨s, List.mem_cons_self _ _, h'⟩
      · obtain ⟨u, hu, hu'⟩ := List.mem_map.mp h'
        exact ⟨u, List.mem_cons_of_mem _ hu, hu'.symm⟩
    have hspread : ¬ (M ≥ 3 / 2 * m) ↔
        ∀ u ∈ s :: rest, ∀ v ∈ s :: rest,
          u.absolute_value < 3 / 2 * v.absolute_value := by
      constructor
      · intro hlt u hu v hv
        have h1 := hMle u hu
        have h2 := hmle v hv
        push_neg at hlt
        linarith
      · intro hall
        obtain ⟨uM, huM, huM'⟩ := hMw
        obtain ⟨um, hum, hum'⟩ := hmw
        have := hall uM huM um hum
        rw [← huM', ← hum'] at this
        linarith
    have hskew : ((s :: rest).any Slice.is_slice_unbalanced = false) ↔
        ∀ u ∈ s :: rest,
          ¬ (u.resources ≥ 2 * u.influence) ∧
          ¬ (u.influence ≥ 2 * u.resources) := by
      rw [List.any_eq_false]
      constructor
      · intro h' u hu
        exact (is_slice_unbalanced_eq_false u).mp
          (Bool.eq_false_iff.mpr (h' u hu))
      · intro h' u hu
        exact Bool.eq_false_iff.mp ((is_slice_unbalanced_eq_false u).mpr (h' u hu))
    constructor
    · unfold check_slice_balance
      by_cases hcond : M ≥ 3 / 2 * m
      · simp only [← hl, ← hM, ← hm, if_pos hcond]
        constructor
        · intro hfalse
          exact absurd hfalse (by simp)
        · rintro ⟨hall, _⟩
          exact absurd hcond (hspread.mpr hall)
      · simp only [← hl, ← hM, ← hm, if_neg hcond]
        by_cases hany : (s :: rest).any Slice.is_slice_unbalanced
        · simp only [if_pos hany]
          constructor
          · intro hfalse
            exact absurd hfalse (by simp)
          · rintro ⟨_, hnos⟩
            rw [hskew.mpr hnos] at hany
            exact absurd hany (by simp)
        · simp only [if_neg hany]
          constructor
          · intro _
            exact ⟨hspread.mp hcond, hskew.mp (Bool.eq_false_iff.mpr hany)⟩
          · intro _
            trivial
    · intro u hu hskewu
      have hany : (s :: rest).any Slice.is_slice_unbalanced = true := by
        rw [List.any_eq_true]
        refine ⟨u, hu, ?_⟩
        unfold Slice.is_slice_unbalanced
        rcases hskewu with h' | h'
        · simp [h']
        · by_cases h1 : u.resources ≥ 2 * u.influence <;> simp [h1, h']
      unfold check_slice_balance
      by_cases hcond : M ≥ 3 / 2 * m
      · simp only [← hl, ← hM, ← hm, if_pos hcond]
      · simp only [← hl, ← hM, ← hm, if_neg hcond, if_pos hany]

/-- **C1, witness.** A single empty slice: the spread check already fails
(`0 ≥ 1.5 × 0`) and the slice is skewed (`0 ≥ 2 × 0`). -/
theorem check_slice_balance_spec_witness :
    ([Slice.create []] ≠ []) ∧
    ((check_slice_balance [Slice.create []] = .ok true ↔
      ((∀ s ∈ [Slice.create []], ∀ t ∈ [Slice.create []],
          s.absolute_value < 3 / 2 * t.absolute_value) ∧
        ∀ s ∈ [Slice.create []],
          ¬ (s.resources ≥ 2 * s.influence) ∧
          ¬ (s.influence ≥ 2 * s.resources))) ∧
    (∀ s ∈ [Slice.create []],
      (s.resources ≥ 2 * s.influence ∨ s.influence ≥ 2 * s.resources) →
      check_slice_balance [Slice.create []] = .ok false)) :=
  ⟨by simp, check_slice_balance_spec [Slice.create []] (by simp)⟩

/-! ### Extraction and sorting lemmas -/

theorem extractFirst_spec {α : Type} (p : α → Bool) :
    ∀ {l l' : List α} {y : α}, extractFirst p l = some (y, l') →
      p y = true ∧ l.Perm (y :: l') := by
  intro l
  induction l with
  | nil => intro l' y h; simp [extractFirst] at h
  | cons x xs ih =>
    intro l' y h
    rw [extractFirst] at h
    by_cases hpx : p x
    · rw [if_pos hpx] at h
      simp only [Option.some.injEq, Prod.mk.injEq] at h
      obtain ⟨hy, hl⟩ := h
      subst hy
      subst hl
      exact ⟨hpx, List.Perm.refl _⟩
    · rw [if_neg hpx] at h
      cases hrec : extractFirst p xs with
      | none => rw [hrec] at h; cases h
      | some pr =>
        obtain ⟨z, rst⟩ := pr
        rw [hrec] at h
        simp only [Option.some.injEq, Prod.mk.injEq] at h
        obtain ⟨hy, hl⟩ := h
        subst hy
        subst hl
        obtain ⟨hpz, hperm⟩ := ih hrec
        exact ⟨hpz, (hperm.cons x).trans (List.Perm.swap _ _ _)⟩

theorem extractFirst_some_of_exists {α : Type} (p : α → Bool) :
    ∀ {l : List α}, (∃ x ∈ l, p x = true) →
      ∃ y l', extractFirst p l = some (y, l') := by
  intro l
  induction l with
  | nil => rintro ⟨x, hx, _⟩; simp at hx
  | cons x xs ih =>
    rintro ⟨z, hz, hpz⟩
    by_cases hpx : p x
    · exact ⟨x, xs, by rw [extractFirst, if_pos hpx]⟩
    · have hzxs : z ∈ xs := by
        rcases List.mem_cons.mp hz with h | h
        · subst h; exact absurd hpz (by simp [hpx])
        · exact h
      obtain ⟨y, l', hy⟩ := ih ⟨z, hzxs, hpz⟩
      exact ⟨y, x :: l', by rw [extractFirst, if_neg hpx, hy]⟩

theorem extractFirst_first {α : Type} {R : α → α → Prop} (hrefl : ∀ a, R a a)
    (p : α → Bool) :
    ∀ {l l' : List α} {y : α}, l.Pairwise R → extractFirst p l = some (y, l') →
      ∀ u ∈ l, p u = true → R y u := by
  intro l
  induction l with
  | nil => intro l' y _ h; simp [extractFirst] at h
  | cons x xs ih =>
    intro l' y hpair h u hu hpu
    rw [extractFirst] at h
    obtain ⟨hx, hxs⟩ := List.pairwise_cons.mp hpair
    by_cases hpx : p x
    · rw [if_pos hpx] at h
      simp only [Option.some.injEq, Prod.mk.injEq] at h
      obtain ⟨hy, _⟩ := h
      subst hy
      rcases List.mem_cons.mp hu with h' | h'
      · subst h'; exact hrefl u
      · exact hx u h'
    · rw [if_neg hpx] at h
      cases hrec : extractFirst p xs with
      | none => rw [hrec] at h; cases h
      | some pr =>
        obtain ⟨z, rst⟩ := pr
        rw [hrec] at h
        simp only [Option.some.injEq, Prod.mk.injEq] at h
        obtain ⟨hy, _⟩ := h
        subst hy
        rcases List.mem_cons.mp hu with h' | h'
        · subst h'; exact absurd hpu (by simp [hpx])
        · exact ih hxs hrec u h' hpu

theorem sortTilesDesc_perm (ts : List Tile) : (sortTilesDesc ts).Perm ts :=
  List.mergeSort_perm ts _

theorem sortTilesAsc_perm (ts : List Tile) : (sortTilesAsc ts).Perm ts :=
  List.mergeSort_perm ts _

theorem sortSlicesByAV_perm (ss : List Slice) : (sortSlicesByAV ss).Perm ss :=
  List.mergeSort_perm ss _

theorem sortTilesDesc_pairwise (ts : List Tile) :
    (sortTilesDesc ts).Pairwise
      (fun a b => b.absolute_value ≤ a.absolute_value) := by
  have h := @List.sorted_mergeSort Tile
    (fun a b : Tile => decide (b.absolute_value ≤ a.absolute_value))
    (fun a b c hab hbc => by
      rw [decide_eq_true_eq] at *
      exact le_trans hbc hab)
    (fun a b => by
      rcases le_total a.absolute_value b.absolute_value with h' | h' <;>
        simp [h'])
    ts
  exact h.imp (fun h' => of_decide_eq_true h')

theorem sortTilesAsc_pairwise (ts : List Tile) :
    (sortTilesAsc ts).Pairwise
      (fun a b => a.absolute_value ≤ b.absolute_value) := by
  have h := @List.sorted_mergeSort Tile
    (fun a b : Tile => decide (a.absolute_value ≤ b.absolute_value))
    (fun a b c hab hbc => by
      rw [decide_eq_true_eq] at *
      exact le_trans hab hbc)
    (fun a b => by
      rcases le_total a.absolute_value b.absolute_value with h' | h' <;>
        simp [h'])
    ts
  exact h.imp (fun h' => of_decide_eq_true h')

theorem mergeSort_pair {α : Type} (le : α → α → Bool) (a b : α)
    (h : le a b = true) : List.mergeSort [a, b] le = [a, b] :=
  List.mergeSort_of_sorted (by simp [h])

/-- `Slice.add` leaves the member list as the old list with the new tile
appended. -/
theorem add_tiles (s : Slice) (t : Tile) : (s.add t).tiles = s.tiles ++ [t] :=
  rfl

/-- `Slice.remove_best_tile` evaluated when a tile of the colour exists. -/
theorem remove_best_tile_eq (s : Slice) (c : String) {y : Tile}
    {l' : List Tile}
    (h : extractFirst (fun t => t.color == c) (sortTilesDesc s.tiles) =
      some (y, l')) :
    s.remove_best_tile c = (some y, { s with tiles := l' }) := by
  rw [Slice.remove_best_tile]
  simp only [h]

/-- `Slice.remove_worst_tile` evaluated when a tile of the colour exists. -/
theorem remove_worst_tile_eq (s : Slice) (c : String) {y : Tile}
    {l' : List Tile}
    (h : extractFirst (fun t => t.color == c) (sortTilesAsc s.tiles) =
      some (y, l')) :
    s.remove_worst_tile c = (some y, { s with tiles := l' }) := by
  rw [Slice.remove_worst_tile]
  simp only [h]

/-! ### C4 — the value-equalization swap -/

/-- **C4.** Whenever the av-sorted slice list has at least two entries, the
best slice's value is `≥ 1.5 ×` the worst's, and both endpoint slices contain
a blue tile and hold 5 tiles, the value-equalization phase of
`rebalance_slices` succeeds: it removes a maximal-value blue tile `bt` from
the best slice and a minimal-value blue tile `wt` from the worst slice, adds
each to the other slice, both slices hold 5 tiles again, and the combined
tile multiset over all slices is exactly that of the input slices. -/
theorem rebalance_value_swap (slices : List Slice) (s0 s1 : Slice)
    (rest : List Slice)
    (hsort : sortSlicesByAV slices = s0 :: s1 :: rest)
    (hcond : ((s1 :: rest).getLast (List.cons_ne_nil s1 rest)).absolute_value ≥
      3 / 2 * s0.absolute_value)
    (hbest5 : ((s1 :: rest).getLast (List.cons_ne_nil s1 rest)).tiles.length = 5)
    (hworst5 : s0.tiles.length = 5)
    (hbblue : ∃ t ∈ ((s1 :: rest).getLast (List.cons_ne_nil s1 rest)).tiles,
      t.color = "blue")
    (hwblue : ∃ t ∈ s0.tiles, t.color = "blue") :
    ∃ bt wt worstNew bestNew,
      bt.color = "blue" ∧ wt.color = "blue" ∧
      bt ∈ ((s1 :: rest).getLast (List.cons_ne_nil s1 rest)).tiles ∧
      (∀ u ∈ ((s1 :: rest).getLast (List.cons_ne_nil s1 rest)).tiles,
        u.color = "blue" → u.absolute_value ≤ bt.absolute_value) ∧
      wt ∈ s0.tiles ∧
      (∀ u ∈ s0.tiles, u.color = "blue" →
        wt.absolute_value ≤ u.absolute_value) ∧
      value_equalization (sortSlicesByAV slices) =
        .ok (worstNew :: (s1 :: rest).dropLast ++ [bestNew]) ∧
      (worstNew.tiles ++ [wt]).Perm (s0.tiles ++ [bt]) ∧
      (bestNew.tiles ++ [bt]).Perm
        (((s1 :: rest).getLast (List.cons_ne_nil s1 rest)).tiles ++ [wt]) ∧
      worstNew.tiles.length = 5 ∧ bestNew.tiles.length = 5 ∧
      (((worstNew :: (s1 :: rest).dropLast ++ [bestNew]).map
        Slice.tiles).flatten).Perm ((slices.map Slice.tiles).flatten) := by
  set best := (s1 :: rest).getLast (List.cons_ne_nil s1 rest) with hbestdef
  -- find the best slice's maximal blue tile
  have hbblue' : ∃ t ∈ sortTilesDesc best.tiles, (t.color == "blue") = true := by
    obtain ⟨t, ht, hc⟩ := hbblue
    exact ⟨t, (sortTilesDesc_perm best.tiles).mem_iff.mpr ht, by simp [hc]⟩
  obtain ⟨bt, bRest, hbex⟩ :=
    extractFirst_some_of_exists (fun t => t.color == "blue") hbblue'
  obtain ⟨hbtp, hbperm⟩ := extractFirst_spec _ hbex
  have hbtcolor : bt.color = "blue" := by simpa using hbtp
  have hbtmem : bt ∈ best.tiles :=
    (sortTilesDesc_perm best.tiles).mem_iff.mp (hbperm.mem_iff.mpr (by simp))
  have hbtmax : ∀ u ∈ best.tiles, u.color = "blue" →
      u.absolute_value ≤ bt.absolute_value := by
    intro u hu hc
    exact extractFirst_first
      (R := fun (a b : Tile) => b.absolute_value ≤ a.absolute_value)
      (fun a => le_refl _) _
      (sortTilesDesc_pairwise best.tiles) hbex u
      ((sortTilesDesc_perm best.tiles).mem_iff.mpr hu) (by simp [hc])
  have hbestperm : best.tiles.Perm (bt :: bRest) :=
    (sortTilesDesc_perm best.tiles).symm.trans hbperm
  -- find the worst slice's minimal blue tile
  have hwblue' : ∃ t ∈ sortTilesAsc s0.tiles, (t.color == "blue") = true := by
    obtain ⟨t, ht, hc⟩ := hwblue
    exact ⟨t, (sortTilesAsc_perm s0.tiles).mem_iff.mpr ht, by simp [hc]⟩
  obtain ⟨wt, wRest, hwex⟩ :=
    extractFirst_some_of_exists (fun t => t.color == "blue") hwblue'
  obtain ⟨hwtp, hwperm⟩ := extractFirst_spec _ hwex
  have hwtcolor : wt.color = "blue" := by simpa using hwtp
  have hwtmem : wt ∈ s0.tiles :=
    (sortTilesAsc_perm s0.tiles).mem_iff.mp (hwperm.mem_iff.mpr (by simp))
  have hwtmin : ∀ u ∈ s0.tiles, u.color = "blue" →
      wt.absolute_value ≤ u.absolute_value := by
    intro u hu hc
    exact extractFirst_first
      (R := fun (a b : Tile) => a.absolute_value ≤ b.absolute_value)
      (fun a => le_refl _) _
      (sortTilesAsc_pairwise s0.tiles) hwex u
      ((sortTilesAsc_perm s0.tiles).mem_iff.mpr hu) (by simp [hc])
  have hworstperm : s0.tiles.Perm (wt :: wRest) :=
    (sortTilesAsc_perm s0.tiles).symm.trans hwperm
  -- evaluate the removals
  have hrb : best.remove_best_tile "blue" =
      (some bt, { best with tiles := bRest }) := remove_best_tile_eq _ _ hbex
  have hrw : s0.remove_worst_tile bt.color =
      (some wt, { s0 with tiles := wRest }) := by
    rw [hbtcolor]
    exact remove_worst_tile_eq _ _ hwex
  -- evaluate the phase
  refine ⟨bt, wt, ({ s0 with tiles := wRest } : Slice).add bt,
    ({ best with tiles := bRest } : Slice).add wt,
    hbtcolor, hwtcolor, hbtmem, hbtmax, hwtmem, hwtmin, ?_, ?_, ?_, ?_, ?_, ?_⟩
  · rw [hsort, value_equalization]
    simp only [← hbestdef, if_pos hcond, hrb, hrw]
  · -- worst slice: lost wt, gained bt
    rw [add_tiles]
    refine List.Perm.trans ?_ ((hworstperm.append_right [bt]).symm)
    rw [← Multiset.coe_eq_coe]
    simp only [← Multiset.coe_add, ← Multiset.cons_coe, ← Multiset.singleton_add]
    abel
  · -- best slice: lost bt, gained wt
    rw [add_tiles]
    refine List.Perm.trans ?_ ((hbestperm.append_right [wt]).symm)
    rw [← Multiset.coe_eq_coe]
    simp only [← Multiset.coe_add, ← Multiset.cons_coe, ← Multiset.singleton_add]
    abel
  · -- worst slice holds 5 again
    rw [add_tiles]
    have := hworstperm.length_eq
    simp only [List.length_cons] at this
    simp [List.length_append]
    omega
  · -- best slice holds 5 again
    rw [add_tiles]
    have := hbestperm.length_eq
    simp only [List.length_cons] at this
    simp [List.length_append]
    omega
  · -- global tile multiset unchanged
    have hdecomp : s1 :: rest = (s1 :: rest).dropLast ++ [best] :=
      (List.dropLast_append_getLast (List.cons_ne_nil s1 rest)).symm
    have hslices : (s0 :: s1 :: rest).Perm slices := by
      rw [← hsort]; exact sortSlicesByAV_perm slices
    refine List.Perm.trans ?_ ((hslices.map Slice.tiles).flatten)
    conv_rhs => rw [hdecomp]
    simp only [List.map_cons, List.map_append, List.flatten_cons,
      List.flatten_append, List.flatten_nil, List.map_nil, add_tiles,
      List.append_nil]
    -- reduce to an AC rearrangement using the two removal permutations
    have h1 : (s0.tiles : Multiset Tile) = ↑(wt :: wRest) :=
      Multiset.coe_eq_coe.mpr hworstperm
    have h2 : (best.tiles : Multiset Tile) = ↑(bt :: bRest) :=
      Multiset.coe_eq_coe.mpr hbestperm
    rw [← Multiset.coe_eq_coe]
    simp only [← Multiset.coe_add, ← Multiset.cons_coe, ← Multiset.singleton_add]
    rw [show ((s0.tiles : Multiset Tile)) = {wt} + ↑wRest by
      rw [h1, ← Multiset.cons_coe, ← Multiset.singleton_add]]
    rw [show ((best.tiles : Multiset Tile)) = {bt} + ↑bRest by
      rw [h2, ← Multiset.cons_coe, ← Multiset.singleton_add]]
    abel

/-- A zero-value blue tile used by concrete instances. -/
def blueZeroTile : Tile := Tile.create 0 "blue" [] []

/-- A slice of five zero-value blue tiles. -/
def fiveBlueSlice : Slice :=
  Slice.create [blueZeroTile, blueZeroTile, blueZeroTile, blueZeroTile,
    blueZeroTile]

theorem fiveBlueSlice_absolute_value : fiveBlueSlice.absolute_value = 0 := by
  norm_num [fiveBlueSlice, Slice.create, Slice.update_values, blueZeroTile,
    Tile.create, wormholesOf]

/-- **C4, witness.** -/
theorem rebalance_value_swap_witness :
    (sortSlicesByAV [fiveBlueSlice, fiveBlueSlice] =
      fiveBlueSlice :: fiveBlueSlice :: []) ∧
    (((fiveBlueSlice :: ([] : List Slice)).getLast
        (List.cons_ne_nil fiveBlueSlice [])).absolute_value ≥
      3 / 2 * fiveBlueSlice.absolute_value) ∧
    (((fiveBlueSlice :: ([] : List Slice)).getLast
        (List.cons_ne_nil fiveBlueSlice [])).tiles.length = 5) ∧
    (fiveBlueSlice.tiles.length = 5) ∧
    (∃ t ∈ ((fiveBlueSlice :: ([] : List Slice)).getLast
        (List.cons_ne_nil fiveBlueSlice [])).tiles, t.color = "blue") ∧
    (∃ t ∈ fiveBlueSlice.tiles, t.color = "blue") ∧
    (∃ bt wt worstNew bestNew,
      bt.color = "blue" ∧ wt.color = "blue" ∧
      bt ∈ ((fiveBlueSlice :: ([] : List Slice)).getLast
        (List.cons_ne_nil fiveBlueSlice [])).tiles ∧
      (∀ u ∈ ((fiveBlueSlice :: ([] : List Slice)).getLast
          (List.cons_ne_nil fiveBlueSlice [])).tiles,
        u.color = "blue" → u.absolute_value ≤ bt.absolute_value) ∧
      wt ∈ fiveBlueSlice.tiles ∧
      (∀ u ∈ fiveBlueSlice.tiles, u.color = "blue" →
        wt.absolute_value ≤ u.absolute_value) ∧
      value_equalization (sortSlicesByAV [fiveBlueSlice, fiveBlueSlice]) =
        .ok (worstNew :: (fiveBlueSlice :: ([] : List Slice)).dropLast ++
          [bestNew]) ∧
      (worstNew.tiles ++ [wt]).Perm (fiveBlueSlice.tiles ++ [bt]) ∧
      (bestNew.tiles ++ [bt]).Perm
        (((fiveBlueSlice :: ([] : List Slice)).getLast
          (List.cons_ne_nil fiveBlueSlice [])).tiles ++ [wt]) ∧
      worstNew.tiles.length = 5 ∧ bestNew.tiles.length = 5 ∧
      (((worstNew :: (fiveBlueSlice :: ([] : List Slice)).dropLast ++
        [bestNew]).map Slice.tiles).flatten).Perm
        (([fiveBlueSlice, fiveBlueSlice].map Slice.tiles).flatten)) := by
  have h1 : sortSlicesByAV [fiveBlueSlice, fiveBlueSlice] =
      fiveBlueSlice :: fiveBlueSlice :: [] :=
    mergeSort_pair _ _ _ (decide_eq_true (le_refl _))
  have h2 : ((fiveBlueSlice :: ([] : List Slice)).getLast
      (List.cons_ne_nil fiveBlueSlice [])).absolute_value ≥
      3 / 2 * fiveBlueSlice.absolute_value := by
    rw [List.getLast_singleton, fiveBlueSlice_absolute_value]
    norm_num
  have h3 : ((fiveBlueSlice :: ([] : List Slice)).getLast
      (List.cons_ne_nil fiveBlueSlice [])).tiles.length = 5 := by
    rw [List.getLast_singleton]
    rfl
  have h4 : fiveBlueSlice.tiles.length = 5 := rfl
  have h5 : ∃ t ∈ ((fiveBlueSlice :: ([] : List Slice)).getLast
      (List.cons_ne_nil fiveBlueSlice [])).tiles, t.color = "blue" := by
    rw [List.getLast_singleton]
    exact ⟨blueZeroTile, by simp [fiveBlueSlice, Slice.create,
      Slice.update_values], rfl⟩
  have h6 : ∃ t ∈ fiveBlueSlice.tiles, t.color = "blue" :=
    ⟨blueZeroTile, by simp [fiveBlueSlice, Slice.create, Slice.update_values],
      rfl⟩
  exact ⟨h1, h2, h3, h4, h5, h6,
    rebalance_value_swap [fiveBlueSlice, fiveBlueSlice] fiveBlueSlice
      fiveBlueSlice [] h1 h2 h3 h4 h5 h6⟩

/-! ### C10 — the `resources / influence` ratio sort -/

/-- Blue tile worth 2 (one planet of influence 2). -/
def zdTileB : Tile :=
  Tile.create 1 "blue" [⟨"a", 0, 2, []⟩] []

/-- Blue tile worth 0 (no planets). -/
def zdTileW1 : Tile := Tile.create 2 "blue" [] []

/-- Red tile worth 1 (one planet of influence 1). -/
def zdTileW2 : Tile :=
  Tile.create 3 "red" [⟨"b", 0, 1, []⟩] []

/-- Worst slice: influence 1, absolute value 1. -/
def zdWorst : Slice := Slice.create [zdTileW1, zdTileW2]

/-- Best slice: influence 2, absolute value 2; its entire influence sits on
its single blue tile. -/
def zdBest : Slice := Slice.create [zdTileB]

/-- State of the worst slice after the value-equalization swap. -/
def zdWorstAfter : Slice := ({ zdWorst with tiles := [zdTileW2] } : Slice).add zdTileB

/-- State of the best slice after the value-equalization swap: it traded its
only influence-bearing tile for the zero tile, so its influence is now 0. -/
def zdBestAfter : Slice := ({ zdBest with tiles := [] } : Slice).add zdTileW1

theorem zdTile_values :
    zdTileW1.absolute_value = 0 ∧ zdTileW2.absolute_value = 1 ∧
    zdTileB.absolute_value = 2 ∧ zdTileW1.influence = 0 ∧
    zdTileW2.influence = 1 ∧ zdTileB.influence = 2 := by
  refine ⟨?_, ?_, ?_, ?_, ?_, ?_⟩ <;>
    norm_num [zdTileW1, zdTileW2, zdTileB, Tile.create, wormholesOf]

theorem zdSlice_values :
    zdWorst.absolute_value = 1 ∧ zdBest.absolute_value = 2 ∧
    zdWorst.influence = 1 ∧ zdBest.influence = 2 := by
  obtain ⟨h1, h2, h3, h4, h5, h6⟩ := zdTile_values
  refine ⟨?_, ?_, ?_, ?_⟩ <;>
    norm_num [zdWorst, zdBest, Slice.create, Slice.update_values,
      h1, h2, h3, h4, h5, h6]

theorem zd_value_equalization :
    value_equalization [zdWorst, zdBest] = .ok [zdWorstAfter, zdBestAfter] := by
  obtain ⟨hw1, hw2, hb, _, _, _⟩ := zdTile_values
  obtain ⟨hW, hB, _, _⟩ := zdSlice_values
  have hcond : zdBest.absolute_value ≥ 3 / 2 * zdWorst.absolute_value := by
    rw [hB, hW]
    norm_num
  have hrb : zdBest.remove_best_tile "blue" =
      (some zdTileB, { zdBest with tiles := [] }) := by
    apply remove_best_tile_eq
    have hsort : sortTilesDesc zdBest.tiles = [zdTileB] := by
      simp [sortTilesDesc, zdBest, Slice.create, Slice.update_values]
    rw [hsort]
    simp [extractFirst, zdTileB, Tile.create]
  have hrw : zdWorst.remove_worst_tile "blue" =
      (some zdTileW1, { zdWorst with tiles := [zdTileW2] }) := by
    apply remove_worst_tile_eq
    have hsort : sortTilesAsc zdWorst.tiles = [zdTileW1, zdTileW2] := by
      show List.mergeSort [zdTileW1, zdTileW2] _ = _
      exact mergeSort_pair _ _ _ (decide_eq_true (by rw [hw1, hw2]; norm_num))
    rw [hsort]
    simp [extractFirst, zdTileW1, Tile.create]
  have hcol : zdTileB.color = "blue" := rfl
  simp only [value_equalization, List.getLast_singleton, List.dropLast_single,
    if_pos hcond, hrb, hcol, hrw, List.nil_append]
  rfl

theorem zdBestAfter_influence : zdBestAfter.influence = 0 := by
  obtain ⟨_, _, _, h4, _, _⟩ := zdTile_values
  norm_num [zdBestAfter, Slice.add, Slice.update_values, h4]

/-- **C10, counterexample.** Every slice of `[zdWorst, zdBest]` has nonzero
influence, yet `rebalance_slices` raises `ZeroDivisionError`: the
value-equalization move fires first (2 ≥ 1.5 × 1) and leaves the best slice
with zero influence, which the `resources / influence` sort key then divides
by. -/
theorem rebalance_zero_division_counterexample :
    (∀ s ∈ [zdWorst, zdBest], s.influence ≠ 0) ∧
    rebalance_slices [zdWorst, zdBest] = .error .zeroDivision := by
  obtain ⟨hW, hB, hWi, hBi⟩ := zdSlice_values
  constructor
  · intro s hs
    rcases List.mem_cons.mp hs with h | h
    · subst h; rw [hWi]; norm_num
    · rcases List.mem_cons.mp h with h | h
      · subst h; rw [hBi]; norm_num
      · simp at h
  · have h1 : sortSlicesByAV [zdWorst, zdBest] = [zdWorst, zdBest] :=
      mergeSort_pair _ _ _ (decide_eq_true (by rw [hW, hB]; norm_num))
    have h3 : ratio_rebalance [zdWorstAfter, zdBestAfter] =
        .error .zeroDivision := by
      have hex : ∃ s ∈ [zdWorstAfter, zdBestAfter], s.influence = 0 :=
        ⟨zdBestAfter, by simp, zdBestAfter_influence⟩
      unfold ratio_rebalance
      rw [if_pos hex]
    rw [rebalance_slices, h1, zd_value_equalization]
    simpa [Except.bind] using h3

/-- `value_equalization` can fail, but never with `ZeroDivisionError`. -/
theorem value_equalization_no_zero_division (ss : List Slice) :
    value_equalization ss ≠ .error .zeroDivision := by
  intro h
  simp only [value_equalization] at h
  repeat' split at h
  all_goals simp at h

/-- The only `ZeroDivisionError` in `ratio_rebalance` is the sort key's
division: it occurs exactly when some input slice has zero influence. -/
theorem ratio_rebalance_zero_division (ss : List Slice)
    (h : ratio_rebalance ss = .error .zeroDivision) :
    ∃ s ∈ ss, s.influence = 0 := by
  by_cases hex : ∃ s ∈ ss, s.influence = 0
  · exact hex
  · exfalso
    simp only [ratio_rebalance] at h
    rw [if_neg hex] at h
    repeat' split at h
    all_goals simp at h

/-- **C10, amended.** The ratio sort divides `resources / influence` for every
slice, so it needs every slice's influence nonzero *at the time of the sort*,
i.e. after the value-equalization move has already mutated the endpoint
slices; under that precondition (stated for whatever slice list the
value-equalization phase hands over) the division-by-zero branch is
unreachable. -/
theorem rebalance_zero_division_unreachable (slices : List Slice)
    (h : ∀ ss', value_equalization (sortSlicesByAV slices) = .ok ss' →
      ∀ s ∈ ss', s.influence ≠ 0) :
    rebalance_slices slices ≠ .error .zeroDivision := by
  rw [rebalance_slices]
  cases hve : value_equalization (sortSlicesByAV slices) with
  | error e =>
    intro hcontra
    simp only [Except.bind] at hcontra
    rw [hcontra] at hve
    exact value_equalization_no_zero_division _ hve
  | ok ss' =>
    intro hcontra
    simp only [Except.bind] at hcontra
    obtain ⟨s, hs, hs0⟩ := ratio_rebalance_zero_division _ hcontra
    exact h ss' hve s hs hs0

/-- **C10 (amended), witness.** A single slice of influence 1: the
value-equalization phase leaves it untouched and the ratio sort divides by 1. -/
theorem rebalance_zero_division_unreachable_witness :
    (∀ ss', value_equalization (sortSlicesByAV [zdWorst]) = .ok ss' →
      ∀ s ∈ ss', s.influence ≠ 0) ∧
    rebalance_slices [zdWorst] ≠ .error .zeroDivision := by
  obtain ⟨hW, _, hWi, _⟩ := zdSlice_values
  have hve : value_equalization (sortSlicesByAV [zdWorst]) = .ok [zdWorst] := by
    have hs : sortSlicesByAV [zdWorst] = [zdWorst] := by
      simp [sortSlicesByAV]
    rw [hs, value_equalization, if_neg]
    rw [hW]
    norm_num
  have h : ∀ ss', value_equalization (sortSlicesByAV [zdWorst]) = .ok ss' →
      ∀ s ∈ ss', s.influence ≠ 0 := by
    intro ss' hss' s hs
    rw [hve] at hss'
    obtain rfl : ([zdWorst] : List Slice) = ss' := by
      simpa using hss'
    have : s = zdWorst := by simpa using hs
    subst this
    rw [hWi]
    norm_num
  exact ⟨h, rebalance_zero_division_unreachable [zdWorst] h⟩

/-! ### The random source, `random.shuffle`, pool drawing and slice building -/

/-- One draw from the modelled random stream (0 once exhausted). -/
def nextRand : List ℕ → ℕ × List ℕ
  | [] => (0, [])
  | r :: rs => (r, rs)

/-- Element at index `j` together with the list without it. -/
def pickIdx {α : Type} : ℕ → List α → Option (α × List α)
  | _, [] => none
  | 0, x :: xs => some (x, xs)
  | j + 1, x :: xs => (pickIdx j xs).map (fun p => (p.1, x :: p.2))

theorem pickIdx_length {α : Type} :
    ∀ {j : ℕ} {l l' : List α} {y : α}, pickIdx j l = some (y, l') →
      l'.length + 1 = l.length := by
  intro j
  induction j with
  | zero =>
    intro l l' y h
    cases l with
    | nil => simp [pickIdx] at h
    | cons x xs =>
      simp only [pickIdx, Option.some.injEq, Prod.mk.injEq] at h
      obtain ⟨_, hl⟩ := h
      subst hl
      simp
  | succ j ih =>
    intro l l' y h
    cases l with
    | nil => simp [pickIdx] at h
    | cons x xs =>
      simp only [pickIdx, Option.map_eq_some'] at h
      obtain ⟨⟨z, rst⟩, hz, hl⟩ := h
      simp only [Prod.mk.injEq] at hl
      obtain ⟨_, hl⟩ := hl
      subst hl
      simp [← ih hz]

theorem pickIdx_perm {α : Type} :
    ∀ {j : ℕ} {l l' : List α} {y : α}, pickIdx j l = some (y, l') →
      l.Perm (y :: l') := by
  intro j
  induction j with
  | zero =>
    intro l l' y h
    cases l with
    | nil => simp [pickIdx] at h
    | cons x xs =>
      simp only [pickIdx, Option.some.injEq, Prod.mk.injEq] at h
      obtain ⟨hy, hl⟩ := h
      subst hy
      subst hl
      exact List.Perm.refl _
  | succ j ih =>
    intro l l' y h
    cases l with
    | nil => simp [pickIdx] at h
    | cons x xs =>
      simp only [pickIdx, Option.map_eq_some'] at h
      obtain ⟨⟨z, rst⟩, hz, hl⟩ := h
      simp only [Prod.mk.injEq] at hl
      obtain ⟨hy, hl⟩ := hl
      subst hy
      subst hl
      exact ((ih hz).cons x).trans (List.Perm.swap _ _ _)

theorem pickIdx_isSome {α : Type} :
    ∀ {j : ℕ} {l : List α}, j < l.length →
      ∃ y l', pickIdx j l = some (y, l') := by
  intro j
  induction j with
  | zero =>
    intro l hl
    cases l with
    | nil => simp at hl
    | cons x xs => exact ⟨x, xs, rfl⟩
  | succ j ih =>
    intro l hl
    cases l with
    | nil => simp at hl
    | cons x xs =>
      obtain ⟨y, l', hy⟩ := ih (by simpa using Nat.lt_of_succ_lt_succ hl)
      exact ⟨y, x :: l', by simp [pickIdx, hy]⟩

/-- Model of `random.shuffle`: a rng-determined uniform permutation, drawing
one stream value per emitted element (extract-at-random-index). -/
def shuffle {α : Type} (l : List α) (rng : List ℕ) : List α × List ℕ :=
  match l with
  | [] => ([], rng)
  | x :: xs =>
    match hp : pickIdx ((nextRand rng).1 % (x :: xs).length) (x :: xs) with
    | some (y, rest) =>
      let res := shuffle rest (nextRand rng).2
      (y :: res.1, res.2)
    | none => ([], (nextRand rng).2)
termination_by l.length
decreasing_by
  have h := pickIdx_length hp
  simp at h ⊢
  omega

theorem shuffle_perm {α : Type} :
    ∀ (n : ℕ) (l : List α), l.length ≤ n → ∀ rng, (shuffle l rng).1.Perm l := by
  intro n
  induction n with
  | zero =>
    intro l hl rng
    have : l = [] := List.length_eq_zero.mp (Nat.le_antisymm hl (Nat.zero_le _))
    subst this
    simp [shuffle]
  | succ n ih =>
    intro l hl rng
    match l with
    | [] => simp [shuffle]
    | x :: xs =>
      rw [shuffle]
      cases hp : pickIdx ((nextRand rng).1 % (x :: xs).length) (x :: xs) with
      | none =>
        exfalso
        have hlt : (nextRand rng).1 % (x :: xs).length < (x :: xs).length :=
          Nat.mod_lt _ (by simp)
        obtain ⟨y, l', hy⟩ := pickIdx_isSome hlt
        rw [hy] at hp
        cases hp
      | some p =>
        obtain ⟨y, rest⟩ := p
        have hlen := pickIdx_length hp
        have hperm := pickIdx_perm hp
        simp only []
        have hih : (shuffle rest (nextRand rng).2).1.Perm rest := by
          apply ih
          have := hl
          simp only [List.length_cons] at this hlen
          omega
        exact ((hih.cons y).trans hperm.symm)

/-- `shuffle` permutes its input. -/
theorem shuffle_perm' {α : Type} (l : List α) (rng : List ℕ) :
    (shuffle l rng).1.Perm l :=
  shuffle_perm l.length l le_rfl rng

/-- The `while True` exclusion loop of `draw_all_tiles`: pop the head; a red
tile is appended back and the loop retries, the first non-red tile popped is
discarded and the rest of the pool returned.  Fuel bounds the loop
(`divergence` = Python spins forever, which happens when every tile is red). -/
def dropFirstNonRed : ℕ → List Tile → Except Err (List Tile)
  | _, [] => .error .indexError
  | 0, _ :: _ => .error .divergence
  | fuel + 1, t :: ts =>
    if t.color == "red" then dropFirstNonRed fuel (ts ++ [t]) else .ok ts

/-- `draw_all_tiles`. -/
def draw_all_tiles (tiles : List Tile) (players : ℕ) (rng : List ℕ) :
    Except Err (List Tile × List ℕ) :=
  if players ≠ 6 then .error .notImplemented
  else
    match dropFirstNonRed ((shuffle tiles rng).1.length + 1)
        (shuffle tiles rng).1 with
    | .ok ts => .ok (ts, (shuffle tiles rng).2)
    | .error e => .error e

/-- The slice-building loop of `generate_slices`: per slice, pop two red
tiles then three blue tiles (`indexError` models `pop(0)` exhaustion). -/
def genLoop : ℕ → List Tile → List Tile → Except Err (List Slice)
  | 0, _, _ => .ok []
  | k + 1, reds, blues =>
    match reds, blues with
    | r1 :: r2 :: rs, b1 :: b2 :: b3 :: bs =>
      match genLoop k rs bs with
      | .ok slices => .ok (Slice.create [r1, r2, b1, b2, b3] :: slices)
      | .error e => .error e
    | _, _ => .error .indexError

/-- `generate_slices`: split the pool by colour, shuffle each half, then build
`k` slices of 2 red + 3 blue tiles. -/
def generate_slices (tiles : List Tile) (k : ℕ) (rng : List ℕ) :
    Except Err (List Slice × List ℕ) :=
  if k ≠ 6 then .error .notImplemented
  else
    match genLoop k (shuffle (tiles.filter (fun t => t.color == "red")) rng).1
        (shuffle (tiles.filter (fun t => t.color == "blue"))
          (shuffle (tiles.filter (fun t => t.color == "red")) rng).2).1 with
    | .ok slices => .ok (slices,
        (shuffle (tiles.filter (fun t => t.color == "blue"))
          (shuffle (tiles.filter (fun t => t.color == "red")) rng).2).2)
    | .error e => .error e

/-! ### C8 — the unsupported-configuration errors -/

theorem dropFirstNonRed_no_notImplemented :
    ∀ (fuel : ℕ) (ts : List Tile),
      dropFirstNonRed fuel ts ≠ .error .notImplemented := by
  intro fuel
  induction fuel with
  | zero =>
    intro ts
    cases ts <;> simp [dropFirstNonRed]
  | succ fuel ih =>
    intro ts
    cases ts with
    | nil => simp [dropFirstNonRed]
    | cons t rest =>
      rw [dropFirstNonRed]
      by_cases h : (t.color == "red") = true
      · rw [if_pos h]
        exact ih _
      · rw [if_neg h]
        simp

theorem genLoop_no_notImplemented :
    ∀ (k : ℕ) (reds blues : List Tile),
      genLoop k reds blues ≠ .error .notImplemented := by
  intro k
  induction k with
  | zero => intro reds blues; simp [genLoop]
  | succ k ih =>
    intro reds blues h
    match reds, blues with
    | r1 :: r2 :: rs, b1 :: b2 :: b3 :: bs =>
      rw [genLoop] at h
      split at h
      · exact absurd h (by simp)
      · rename_i e heq
        rw [Except.error.injEq] at h
        subst h
        exact ih _ _ heq
    | [], bs => simp [genLoop] at h
    | [r], bs => simp [genLoop] at h
    | r1 :: r2 :: rs, [] => simp [genLoop] at h
    | r1 :: r2 :: rs, [b] => simp [genLoop] at h
    | r1 :: r2 :: rs, [b1, b2] => simp [genLoop] at h

/-- **C8.** `draw_all_tiles` raises the unsupported-configuration error
exactly when `players ≠ 6`, and `generate_slices` raises it exactly when
`k ≠ 6`; for the argument 6 neither raises it (any failure there is a
different error). -/
theorem not_implemented_iff_ne_six (tiles : List Tile) (players k : ℕ)
    (rng : List ℕ) :
    (draw_all_tiles tiles players rng = .error .notImplemented ↔
      players ≠ 6) ∧
    (generate_slices tiles k rng = .error .notImplemented ↔ k ≠ 6) := by
  constructor
  · constructor
    · intro h hp
      rw [draw_all_tiles, if_neg (by simpa using hp)] at h
      cases hdrop : dropFirstNonRed ((shuffle tiles rng).1.length + 1)
          (shuffle tiles rng).1 with
      | ok ts => rw [hdrop] at h; simp at h
      | error e =>
        rw [hdrop] at h
        simp only [Except.error.injEq] at h
        exact dropFirstNonRed_no_notImplemented _ _ (by rw [hdrop, h])
    · intro hp
      rw [draw_all_tiles, if_pos hp]
  · constructor
    · intro h hk
      rw [generate_slices, if_neg (by simpa using hk)] at h
      split at h
      · simp at h
      · rename_i e heq
        simp only [Except.error.injEq] at h
        exact genLoop_no_notImplemented _ _ _ (h ▸ heq)
    · intro hk
      rw [generate_slices, if_pos hk]

/-! ### C5 — slice building partitions the pool -/

theorem genLoop_spec :
    ∀ (k : ℕ) (reds blues : List Tile),
      reds.length = 2 * k → blues.length = 3 * k →
      (∀ t ∈ reds, t.color = "red") → (∀ t ∈ blues, t.color = "blue") →
      ∃ slices, genLoop k reds blues = .ok slices ∧
        slices.length = k ∧
        (∀ s ∈ slices,
          (s.tiles.filter (fun t => t.color == "red")).length = 2 ∧
          (s.tiles.filter (fun t => t.color == "blue")).length = 3 ∧
          s.tiles.length = 5) ∧
        ((slices.map Slice.tiles).flatten).Perm (reds ++ blues) := by
  intro k
  induction k with
  | zero =>
    intro reds blues hr hb _ _
    have hr0 : reds = [] := List.length_eq_zero.mp (by omega)
    have hb0 : blues = [] := List.length_eq_zero.mp (by omega)
    subst hr0
    subst hb0
    exact ⟨[], rfl, rfl, by simp, by simp⟩
  | succ k ih =>
    intro reds blues hr hb hrc hbc
    match reds, hr with
    | r1 :: r2 :: rs, hr =>
      match blues, hb with
      | b1 :: b2 :: b3 :: bs, hb =>
        simp only [List.length_cons] at hr hb
        obtain ⟨slices, hgen, hlen, hslices, hperm⟩ :=
          ih rs bs (by omega) (by omega)
            (fun t ht => hrc t (by simp [ht]))
            (fun t ht => hbc t (by simp [ht]))
        refine ⟨Slice.create [r1, r2, b1, b2, b3] :: slices, ?_, ?_, ?_, ?_⟩
        · rw [genLoop, hgen]
        · simp [hlen]
        · intro s hs
          rcases List.mem_cons.mp hs with h | h
          · subst h
            have h1 : r1.color = "red" := hrc r1 (by simp)
            have h2 : r2.color = "red" := hrc r2 (by simp)
            have h3 : b1.color = "blue" := hbc b1 (by simp)
            have h4 : b2.color = "blue" := hbc b2 (by simp)
            have h5 : b3.color = "blue" := hbc b3 (by simp)
            refine ⟨?_, ?_, rfl⟩ <;>
              simp [Slice.create, Slice.update_values, List.filter,
                h1, h2, h3, h4, h5]
          · exact hslices s h
        · show ((Slice.create [r1, r2, b1, b2, b3]).tiles ++
            (slices.map Slice.tiles).flatten).Perm _
          have htiles : (Slice.create [r1, r2, b1, b2, b3]).tiles =
              [r1, r2, b1, b2, b3] := rfl
          rw [htiles]
          refine List.Perm.trans (((List.Perm.refl _).append hperm)) ?_
          rw [← Multiset.coe_eq_coe]
          simp only [← Multiset.coe_add, ← Multiset.cons_coe,
            ← Multiset.singleton_add]
          abel

/-- **C5.** On a pool of exactly 12 red and 18 blue tiles, `generate_slices`
with `k = 6` succeeds with six slices of exactly 2 red + 3 blue tiles each,
and the slices together hold exactly the pool's tiles (as a multiset: nothing
duplicated, nothing dropped). -/
theorem generate_slices_partition (tiles : List Tile) (rng : List ℕ)
    (hred : (tiles.filter (fun t => t.color == "red")).length = 12)
    (hblue : (tiles.filter (fun t => t.color == "blue")).length = 18)
    (hcolors : ∀ t ∈ tiles, t.color = "red" ∨ t.color = "blue") :
    ∃ slices rng',
      generate_slices tiles 6 rng = .ok (slices, rng') ∧
      slices.length = 6 ∧
      (∀ s ∈ slices,
        (s.tiles.filter (fun t => t.color == "red")).length = 2 ∧
        (s.tiles.filter (fun t => t.color == "blue")).length = 3 ∧
        s.tiles.length = 5) ∧
      ((slices.map Slice.tiles).flatten).Perm tiles := by
  set redsPool := tiles.filter (fun t => t.color == "red") with hrp
  set bluesPool := tiles.filter (fun t => t.color == "blue") with hbp
  have hr1 : (shuffle redsPool rng).1.Perm redsPool := shuffle_perm' _ _
  have hb1 : (shuffle bluesPool (shuffle redsPool rng).2).1.Perm bluesPool :=
    shuffle_perm' _ _
  obtain ⟨slices, hgen, hlen, hsl, hperm⟩ :=
    genLoop_spec 6 (shuffle redsPool rng).1
      (shuffle bluesPool (shuffle redsPool rng).2).1
      (by rw [hr1.length_eq]; omega)
      (by rw [hb1.length_eq]; omega)
      (fun t ht => by
        have := hr1.mem_iff.mp ht
        rw [hrp] at this
        simpa using (List.mem_filter.mp this).2)
      (fun t ht => by
        have := hb1.mem_iff.mp ht
        rw [hbp] at this
        simpa using (List.mem_filter.mp this).2)
  refine ⟨slices, (shuffle bluesPool (shuffle redsPool rng).2).2, ?_, hlen,
    hsl, ?_⟩
  · rw [generate_slices, if_neg (by simp)]
    simp only [← hrp, ← hbp, hgen]
  · refine hperm.trans ?_
    refine List.Perm.trans (hr1.append hb1) ?_
    have hsplit : (redsPool ++
        tiles.filter (fun t => !(t.color == "red"))).Perm tiles :=
      List.filter_append_perm _ tiles
    have hfeq : tiles.filter (fun t => !(t.color == "red")) = bluesPool := by
      rw [hbp]
      apply List.filter_congr
      intro t ht
      rcases hcolors t ht with h | h <;> simp [h]
    rw [← hfeq]
    exact hsplit

/-- A zero-value red tile used by concrete instances. -/
def redZeroTile : Tile := Tile.create 10 "red" [] []

/-- A pool of exactly 12 red and 18 blue tiles. -/
def pool30 : List Tile :=
  List.replicate 12 redZeroTile ++ List.replicate 18 blueZeroTile

/-- **C5, witness.** -/
theorem generate_slices_partition_witness :
    ((pool30.filter (fun t => t.color == "red")).length = 12) ∧
    ((pool30.filter (fun t => t.color == "blue")).length = 18) ∧
    (∀ t ∈ pool30, t.color = "red" ∨ t.color = "blue") ∧
    (∃ slices rng',
      generate_slices pool30 6 [] = .ok (slices, rng') ∧
      slices.length = 6 ∧
      (∀ s ∈ slices,
        (s.tiles.filter (fun t => t.color == "red")).length = 2 ∧
        (s.tiles.filter (fun t => t.color == "blue")).length = 3 ∧
        s.tiles.length = 5) ∧
      ((slices.map Slice.tiles).flatten).Perm pool30) :=
  ⟨by decide, by decide, by decide,
    generate_slices_partition pool30 [] (by decide) (by decide) (by decide)⟩

/-! ### `place_tiles` -/

/-- The hex-ring adjacency test defined inside `place_tiles` (documented but
never consulted by any caller). -/
def adjacent (pos_a pos_b : ℕ) : Bool :=
  pos_a == 0 || pos_b == 0 || (pos_a + 1) % 6 == pos_b ||
    (pos_b + 1) % 6 == pos_a

/-- The slot-assignment loop of `place_tiles`: each tile consumes the next
slot (`result[non_allocated.pop(0)] = tile`); `none` models the `IndexError`
of popping an exhausted slot list. -/
def fillSlots : List Tile → List ℕ → List (Option Tile) →
    Option (List (Option Tile) × List ℕ)
  | [], slots, res => some (res, slots)
  | _ :: _, [], _ => none
  | t :: ts, p :: slots, res => fillSlots ts slots (res.set p (some t))

/-- The slot-0 treatment for the first blue tile: with no blue tile nothing
happens; with multiple anomaly-bearing tiles slot 0 is forced to the front;
otherwise slot 0 is inserted at a `randint(0, len-1)` position. -/
def naAfterHub (blues : List Tile) (multi : Bool) (na : List ℕ)
    (rng : List ℕ) : List ℕ × List ℕ :=
  if blues.isEmpty then (na, rng)
  else if multi then (0 :: na, rng)
  else (na.insertIdx ((nextRand rng).1 % na.length) 0, (nextRand rng).2)

/-- `Slice.place_tiles`, acting on the member list: shuffle the tiles, shuffle
the candidate slots `[1, 3, 5, 6]`, treat slot 0 according to the anomaly
count, then fill the blue tiles followed by the red tiles into the popped
slots of a 7-element `None`-initialised arrangement. -/
def place_tiles (tiles : List Tile) (rng : List ℕ) :
    Option (List (Option Tile) × List ℕ) :=
  match fillSlots
      ((shuffle tiles rng).1.filter (fun t => t.color == "blue") ++
        (shuffle tiles rng).1.filter (fun t => t.color == "red"))
      (naAfterHub ((shuffle tiles rng).1.filter (fun t => t.color == "blue"))
        (decide (1 < ((shuffle tiles rng).1.filter
          (fun t => !t.anomalies.isEmpty)).length))
        (shuffle [1, 3, 5, 6] (shuffle tiles rng).2).1
        (shuffle [1, 3, 5, 6] (shuffle tiles rng).2).2).1
      (List.replicate 7 none) with
  | some (res, _) =>
    some (res,
      (naAfterHub ((shuffle tiles rng).1.filter (fun t => t.color == "blue"))
        (decide (1 < ((shuffle tiles rng).1.filter
          (fun t => !t.anomalies.isEmpty)).length))
        (shuffle [1, 3, 5, 6] (shuffle tiles rng).2).1
        (shuffle [1, 3, 5, 6] (shuffle tiles rng).2).2).2)
  | none => none

/-! ### C6 — placement yields 7 slots, hubs 2/4 empty, tiles preserved -/

theorem filterMap_set_none :
    ∀ {res : List (Option Tile)} {p : ℕ} {t : Tile},
      res[p]? = some none →
      ((res.set p (some t)).filterMap id).Perm (t :: res.filterMap id) := by
  intro res
  induction res with
  | nil => intro p t h; simp at h
  | cons x rest ih =>
    intro p t h
    cases p with
    | zero =>
      simp only [List.getElem?_cons_zero, Option.some.injEq] at h
      subst h
      simp [List.set]
    | succ p =>
      simp only [List.getElem?_cons_succ] at h
      cases x with
      | none =>
        simpa [List.set, List.filterMap_cons] using ih h
      | some y =>
        simp only [List.set, List.filterMap_cons]
        exact ((ih h).cons y).trans (List.Perm.swap _ _ _)

theorem fillSlots_spec :
    ∀ (ts : List Tile) (slots : List ℕ) (res : List (Option Tile)),
      ts.length ≤ slots.length → slots.Nodup →
      (∀ p ∈ slots, p < res.length) →
      (∀ p ∈ slots, res[p]? = some none) →
      ∃ res', fillSlots ts slots res = some (res', slots.drop ts.length) ∧
        res'.length = res.length ∧
        (∀ q : ℕ, q ∉ slots.take ts.length → res'[q]? = res[q]?) ∧
        (res'.filterMap id).Perm ((res.filterMap id) ++ ts) := by
  intro ts
  induction ts with
  | nil =>
    intro slots res _ _ _ _
    exact ⟨res, rfl, rfl, fun q _ => rfl, by simp⟩
  | cons t ts ih =>
    intro slots res hlen hnd hlt hnone
    match slots, hlen with
    | p :: slots, hlen =>
      obtain ⟨hp, hnd'⟩ := List.pairwise_cons.mp hnd
      have hplt : p < res.length := hlt p (by simp)
      have hpnone : res[p]? = some none := hnone p (by simp)
      obtain ⟨res', hfill, hlen', huntouched, hperm⟩ :=
        ih slots (res.set p (some t))
          (by simpa using Nat.le_of_succ_le_succ hlen)
          hnd'
          (fun q hq => by
            rw [List.length_set]
            exact hlt q (by simp [hq]))
          (fun q hq => by
            rw [List.getElem?_set_ne (hp q hq)]
            exact hnone q (by simp [hq]))
      refine ⟨res', ?_, ?_, ?_, ?_⟩
      · rw [fillSlots, hfill]
        rfl
      · rw [hlen', List.length_set]
      · intro q hq
        simp only [List.length_cons, List.take_succ_cons, List.mem_cons,
          not_or] at hq
        obtain ⟨hqp, hqrest⟩ := hq
        rw [huntouched q hqrest, List.getElem?_set_ne (Ne.symm hqp)]
      · refine hperm.trans ?_
        refine List.Perm.trans ((filterMap_set_none hpnone).append_right ts) ?_
        exact List.perm_middle.symm

theorem naAfterHub_perm (blues : List Tile) (multi : Bool) (na : List ℕ)
    (rng : List ℕ) (hb : blues ≠ []) (hlen : 0 < na.length) :
    ((naAfterHub blues multi na rng).1).Perm (0 :: na) := by
  unfold naAfterHub
  rw [if_neg (by simpa [List.isEmpty_iff] using hb)]
  cases multi with
  | true => simp
  | false =>
    rw [if_neg (by simp)]
    exact List.perm_insertIdx 0 na (le_of_lt (Nat.mod_lt _ hlen))

/-- **C6.** On a slice's member list of 2 red and 3 blue tiles, `place_tiles`
yields a 7-slot arrangement whose positions 2 and 4 are empty and whose
occupied slots hold exactly the 5 original tiles — none duplicated, none
lost. -/
theorem place_tiles_spec (tiles : List Tile) (rng : List ℕ)
    (hred : (tiles.filter (fun t => t.color == "red")).length = 2)
    (hblue : (tiles.filter (fun t => t.color == "blue")).length = 3)
    (hcolors : ∀ t ∈ tiles, t.color = "red" ∨ t.color = "blue") :
    ∃ res rng',
      place_tiles tiles rng = some (res, rng') ∧
      res.length = 7 ∧ res[2]? = some none ∧ res[4]? = some none ∧
      (res.filterMap id).Perm tiles := by
  have hsh : (shuffle tiles rng).1.Perm tiles := shuffle_perm' _ _
  set sh1 := (shuffle tiles rng).1 with hsh1
  set blues := sh1.filter (fun t => t.color == "blue") with hbdef
  set reds := sh1.filter (fun t => t.color == "red") with hrdef
  have hbluesperm : blues.Perm (tiles.filter (fun t => t.color == "blue")) :=
    hsh.filter _
  have hredsperm : reds.Perm (tiles.filter (fun t => t.color == "red")) :=
    hsh.filter _
  have hblen : blues.length = 3 := by rw [hbluesperm.length_eq, hblue]
  have hrlen : reds.length = 2 := by rw [hredsperm.length_eq, hred]
  have hbne : blues ≠ [] := by
    intro h
    rw [h] at hblen
    simp at hblen
  have hnaperm : (shuffle [1, 3, 5, 6] (shuffle tiles rng).2).1.Perm
      [1, 3, 5, 6] := shuffle_perm' _ _
  have hnalen : (shuffle [1, 3, 5, 6] (shuffle tiles rng).2).1.length = 4 := by
    simpa using hnaperm.length_eq
  set na1 := (shuffle [1, 3, 5, 6] (shuffle tiles rng).2).1 with hna1
  set na2 := (shuffle [1, 3, 5, 6] (shuffle tiles rng).2).2 with hna2
  set multi := decide (1 < (sh1.filter (fun t => !t.anomalies.isEmpty)).length)
    with hmulti
  set slots := (naAfterHub blues multi na1 na2).1 with hslots
  have hslotperm : slots.Perm (0 :: na1) :=
    naAfterHub_perm _ _ _ _ hbne (by omega)
  have hslotmem : ∀ p ∈ slots, p = 0 ∨ p = 1 ∨ p = 3 ∨ p = 5 ∨ p = 6 := by
    intro p hp
    rcases List.mem_cons.mp (hslotperm.mem_iff.mp hp) with h | h
    · exact Or.inl h
    · have hm := hnaperm.mem_iff.mp h
      simp only [List.mem_cons, List.mem_singleton] at hm
      tauto
  have hslotnodup : slots.Nodup := by
    refine hslotperm.nodup_iff.mpr ?_
    refine List.nodup_cons.mpr ⟨?_, hnaperm.nodup_iff.mpr (by decide)⟩
    intro h0
    have := hnaperm.mem_iff.mp h0
    simp at this
  have hslotlen : slots.length = 5 := by
    rw [hslotperm.length_eq, List.length_cons, hnalen]
  obtain ⟨res', hfill, hlen', huntouched, hperm⟩ :=
    fillSlots_spec (blues ++ reds) slots (List.replicate 7 none)
      (by rw [List.length_append, hblen, hrlen, hslotlen])
      hslotnodup
      (fun p hp => by
        rcases hslotmem p hp with h | h | h | h | h <;> subst h <;> simp)
      (fun p hp => by
        rcases hslotmem p hp with h | h | h | h | h <;> subst h <;> rfl)
  have hnotin : ∀ q : ℕ, q ∉ ({0, 1, 3, 5, 6} : Set ℕ) →
      q ∉ slots.take (blues ++ reds).length := by
    intro q hq hmem
    rcases hslotmem q (List.take_subset _ _ hmem) with h | h | h | h | h <;>
      simp [h] at hq
  refine ⟨res', (naAfterHub blues multi na1 na2).2, ?_, ?_, ?_, ?_, ?_⟩
  · rw [place_tiles]
    simp only [← hsh1, ← hbdef, ← hrdef, ← hna1, ← hna2, ← hmulti, ← hslots,
      hfill]
  · rw [hlen']
    simp
  · rw [huntouched 2 (hnotin 2 (by simp))]
    rfl
  · rw [huntouched 4 (hnotin 4 (by simp))]
    rfl
  · refine hperm.trans ?_
    have hrepl : (List.replicate 7 (none : Option Tile)).filterMap id = [] := by
      rfl
    rw [hrepl, List.nil_append]
    refine List.Perm.trans (hbluesperm.append hredsperm) ?_
    have hsplit : (tiles.filter (fun t => t.color == "blue") ++
        tiles.filter (fun t => !(t.color == "blue"))).Perm tiles :=
      List.filter_append_perm _ tiles
    have hfeq : tiles.filter (fun t => !(t.color == "blue")) =
        tiles.filter (fun t => t.color == "red") := by
      apply List.filter_congr
      intro t ht
      rcases hcolors t ht with h | h <;> simp [h]
    rw [hfeq] at hsplit
    exact hsplit

/-- **C6, witness.** -/
theorem place_tiles_spec_witness :
    (([redZeroTile, redZeroTile, blueZeroTile, blueZeroTile,
        blueZeroTile].filter (fun t => t.color == "red")).length = 2) ∧
    (([redZeroTile, redZeroTile, blueZeroTile, blueZeroTile,
        blueZeroTile].filter (fun t => t.color == "blue")).length = 3) ∧
    (∀ t ∈ [redZeroTile, redZeroTile, blueZeroTile, blueZeroTile,
        blueZeroTile], t.color = "red" ∨ t.color = "blue") ∧
    (∃ res rng',
      place_tiles [redZeroTile, redZeroTile, blueZeroTile, blueZeroTile,
        blueZeroTile] [] = some (res, rng') ∧
      res.length = 7 ∧ res[2]? = some none ∧ res[4]? = some none ∧
      (res.filterMap id).Perm [redZeroTile, redZeroTile, blueZeroTile,
        blueZeroTile, blueZeroTile]) :=
  ⟨by decide, by decide, by decide,
    place_tiles_spec _ [] (by decide) (by decide) (by decide)⟩

/-! ### C9 — the end-to-end pipeline is deterministic in the random source -/

/-- The balance loop of `prepare_slices` (`while True: check; rebalance`),
with explicit fuel; exhaustion models the loop spinning forever. -/
def balanceLoop : ℕ → List Slice → Except Err (List Slice)
  | 0, _ => .error .divergence
  | fuel + 1, slices =>
    match check_slice_balance slices with
    | .error e => .error e
    | .ok true => .ok slices
    | .ok false =>
      match rebalance_slices slices with
      | .ok slices' => balanceLoop fuel slices'
      | .error e => .error e

/-- The final loop of `prepare_slices`: place every slice in order, threading
the random stream. -/
def placeAll : List Slice → List ℕ →
    Except Err (List (List (Option Tile)) × List ℕ)
  | [], rng => .ok ([], rng)
  | s :: rest, rng =>
    match place_tiles s.tiles rng with
    | none => .error .indexError
    | some (res, rng') =>
      match placeAll rest rng' with
      | .ok (others, rng'') => .ok (res :: others, rng'')
      | .error e => .error e

/-- `prepare_slices` from the point the tile catalog has been loaded: draw
the pool, build the slices, loop until balanced, then place each slice's
tiles.  Returns the balanced slice compositions together with the per-slice
placements. -/
def prepare_slices (tiles : List Tile) (rng : List ℕ) (fuel : ℕ) :
    Except Err (List Slice × List (List (Option Tile))) :=
  match draw_all_tiles tiles 6 rng with
  | .error e => .error e
  | .ok (pool, rng1) =>
    match generate_slices pool 6 rng1 with
    | .error e => .error e
    | .ok (slices, rng2) =>
      match balanceLoop fuel slices with
      | .error e => .error e
      | .ok balanced =>
        match placeAll balanced rng2 with
        | .error e => .error e
        | .ok (placed, _) => .ok (balanced, placed)

/-- **C9.** With the random source threaded explicitly, the whole pipeline is
a pure function of the catalog, the random stream and the loop fuel: two runs
on a catalog with exactly enough tiles for six slices (12 red, 19 blue — one
blue is excluded by the draw) from equal random-source states produce
identical slice compositions and identical placements. -/
theorem prepare_slices_deterministic (tiles : List Tile) (rng₁ rng₂ : List ℕ)
    (fuel : ℕ)
    (hred : (tiles.filter (fun t => t.color == "red")).length = 12)
    (hblue : (tiles.filter (fun t => t.color == "blue")).length = 19)
    (hseed : rng₁ = rng₂) :
    prepare_slices tiles rng₁ fuel = prepare_slices tiles rng₂ fuel := by
  rw [hseed]

/-- **C9, witness.** -/
theorem prepare_slices_deterministic_witness :
    (((List.replicate 12 redZeroTile ++ List.replicate 19
        blueZeroTile).filter (fun t => t.color == "red")).length = 12) ∧
    (((List.replicate 12 redZeroTile ++ List.replicate 19
        blueZeroTile).filter (fun t => t.color == "blue")).length = 19) ∧
    (([] : List ℕ) = ([] : List ℕ)) ∧
    prepare_slices (List.replicate 12 redZeroTile ++ List.replicate 19
        blueZeroTile) [] 5 =
      prepare_slices (List.replicate 12 redZeroTile ++ List.replicate 19
        blueZeroTile) [] 5 :=
  ⟨by decide, by decide, rfl,
    prepare_slices_deterministic _ [] [] 5 (by decide) (by decide) rfl⟩

end TI4
